import Mathlib

/-!
Shallow embedding of the Connect Four engine (class ConnectFour of
sourcecode.py) and verification of its specification claims.

The Python class mutates one shared grid in place; here the grid is a
field of a `Game` value and every operation that mutates in Python
threads the `Game` value explicitly, returning the final grid together
with its result, so that frame properties (the board is restored after
search) are genuine theorems.  Cells hold 0 (empty), 1 (human, PlayerA)
or 2 (AI, PlayerB), exactly as in the source.  Scores live in
`WithBot (WithTop Int)` so that the sentinels -float(inf) and
+float(inf) of the source are the genuine bottom and top elements.
-/

/-- The game state: the fields rows, cols and board of class
ConnectFour (the fields current_player, game_over, winner drive only
the excluded outer loop and are not used by any claim).  board is a
rows-long list of cols-long lists, row 0 at the top, exactly the
Python list of lists. -/
structure Game where
  rows : Nat
  cols : Nat
  board : List (List Nat)
deriving DecidableEq, Repr

/-- Reading board[r][c]; out-of-range reads default to 0 (they never
occur on well-formed boards along executed paths). -/
def cell (g : Game) (r c : Nat) : Nat :=
  (g.board.getD r []).getD c 0

/-- Writing board[r][c] = v; out-of-range writes leave the grid
unchanged. -/
def setCell (g : Game) (r c v : Nat) : Game :=
  { g with board := g.board.set r ((g.board.getD r []).set c v) }

/-- The initial board of ConnectFour.__init__: a rows x cols grid of
zeros. -/
def initGame (rows cols : Nat) : Game :=
  ⟨rows, cols, List.replicate rows (List.replicate cols 0)⟩

/-- ConnectFour.is_valid_move: 0 <= col < cols and board[0][col] == 0
(column indices are naturals here, so the lower bound is implicit). -/
def is_valid_move (g : Game) (col : Nat) : Bool :=
  decide (col < g.cols) && (cell g 0 col == 0)

/-- ConnectFour.get_valid_moves: the valid columns in ascending
order. -/
def get_valid_moves (g : Game) : List Nat :=
  (List.range g.cols).filter (fun col => is_valid_move g col)

/-- The scan of ConnectFour.get_next_open_row (and the identical drop
loop inside make_move): for row in range(rows-1, -1, -1), return the
first row with board[row][col] == 0.  The fuel argument is the number
of rows still to scan; scanOpenRow g col (r+1) inspects row r first. -/
def scanOpenRow (g : Game) (col : Nat) : Nat → Option Nat
  | 0 => none
  | r + 1 => if cell g r col = 0 then some r else scanOpenRow g col r

/-- ConnectFour.get_next_open_row; none models the Python return value
-1 (column full). -/
def get_next_open_row (g : Game) (col : Nat) : Option Nat :=
  scanOpenRow g col g.rows

/-- ConnectFour.make_move: drop a piece of player into col; on an
invalid column return the board unchanged and false. -/
def make_move (g : Game) (col player : Nat) : Game × Bool :=
  if is_valid_move g col then
    match get_next_open_row g col with
    | some row => (setCell g row col player, true)
    | none => (g, false)
  else (g, false)

/-- ConnectFour.check_winner: scan every length-4 window of the four
axes (horizontal, vertical, diagonal down-right, diagonal down-left)
for four cells equal to player. -/
def check_winner (g : Game) (player : Nat) : Bool :=
  ((List.range g.rows).any fun row => (List.range (g.cols - 3)).any fun col =>
    (List.range 4).all fun i => cell g row (col + i) == player)
  || ((List.range (g.rows - 3)).any fun row => (List.range g.cols).any fun col =>
    (List.range 4).all fun i => cell g (row + i) col == player)
  || ((List.range (g.rows - 3)).any fun row => (List.range (g.cols - 3)).any fun col =>
    (List.range 4).all fun i => cell g (row + i) (col + i) == player)
  || ((List.range (g.rows - 3)).any fun row => (List.range' 3 (g.cols - 3)).any fun col =>
    (List.range 4).all fun i => cell g (row + i) (col - i) == player)

/-- ConnectFour.is_board_full: every top cell is occupied. -/
def is_board_full (g : Game) : Bool :=
  (List.range g.cols).all fun col => cell g 0 col != 0

/-- ConnectFour.evaluate_window: the additive form of the source, a
score chain on the count of the player plus an independent -4 penalty
when the opponent (3 - player) is one move from completing. -/
def evaluate_window (window : List Nat) (player : Nat) : Int :=
  (if window.count player = 4 then 100
   else if window.count player = 3 ∧ window.count 0 = 1 then 5
   else if window.count player = 2 ∧ window.count 0 = 2 then 2
   else 0)
  + (if window.count (3 - player) = 3 ∧ window.count 0 = 1 then -4 else 0)

/-- ConnectFour.evaluate_board: three points per piece of player in
the center column cols / 2, plus the window scores of every length-4
window along the four axes. -/
def evaluate_board (g : Game) (player : Nat) : Int :=
  (((List.range g.rows).map (fun row => cell g row (g.cols / 2))).count player : Int) * 3
  + ((List.range g.rows).map (fun row =>
      ((List.range (g.cols - 3)).map (fun col =>
        evaluate_window ((List.range 4).map fun i => cell g row (col + i)) player)).sum)).sum
  + ((List.range (g.rows - 3)).map (fun row =>
      ((List.range g.cols).map (fun col =>
        evaluate_window ((List.range 4).map fun i => cell g (row + i) col) player)).sum)).sum
  + ((List.range (g.rows - 3)).map (fun row =>
      ((List.range (g.cols - 3)).map (fun col =>
        evaluate_window ((List.range 4).map fun i => cell g (row + i) (col + i)) player)).sum)).sum
  + ((List.range (g.rows - 3)).map (fun row =>
      ((List.range' 3 (g.cols - 3)).map (fun col =>
        evaluate_window ((List.range 4).map fun i => cell g (row + i) (col - i)) player)).sum)).sum

/-- Search scores: integers extended with the sentinels -float(inf)
and +float(inf) of the source. -/
abbrev Score : Type := WithBot (WithTop Int)

/-- A finite score. -/
def sc (n : Int) : Score := ((n : WithTop Int) : WithBot (WithTop Int))

/-- The terminal and leaf scoring block of ConnectFour.minimax (lines
checking winner 2, winner 1, full board, else the heuristic for
player 2). -/
def leafScore (g : Game) : Score :=
  if check_winner g 2 then sc 1000000000
  else if check_winner g 1 then sc (-1000000000)
  else if is_board_full g then sc 0
  else sc (evaluate_board g 2)

/-- The is_terminal test of ConnectFour.minimax. -/
def isTerminal (g : Game) : Bool :=
  check_winner g 1 || check_winner g 2 || is_board_full g

/-- The maximizing loop of ConnectFour.minimax, parameterized by the
recursive call at depth - 1 (child takes the current alpha and the
current board).  Each iteration writes the piece 2 into the open row
of col, runs the child, erases the piece, performs the strict
improvement update, raises alpha and breaks as soon as alpha >= beta.
The row fallback g.rows - 1 transcribes the Python index -1 returned
by get_next_open_row on a full column (never hit on valid moves). -/
def maxStep (child : Score → Game → Game × Option Nat × Score) (beta : Score) :
    List Nat → Game → Score → Score → Nat → Game × Option Nat × Score
  | [], g, _, value, best => (g, some best, value)
  | col :: rest, g, alpha, value, best =>
    let row := (get_next_open_row g col).getD (g.rows - 1)
    let g1 := setCell g row col 2
    let r := child alpha g1
    let g2 := setCell r.1 row col 0
    let s := r.2.2
    let value' := if value < s then s else value
    let best' := if value < s then col else best
    let alpha' := max alpha value'
    if beta ≤ alpha' then (g2, some best', value')
    else maxStep child beta rest g2 alpha' value' best'

/-- The minimizing loop of ConnectFour.minimax, parameterized by the
recursive call at depth - 1 (child takes the current beta and the
current board). -/
def minStep (child : Score → Game → Game × Option Nat × Score) (alpha : Score) :
    List Nat → Game → Score → Score → Nat → Game × Option Nat × Score
  | [], g, _, value, best => (g, some best, value)
  | col :: rest, g, beta, value, best =>
    let row := (get_next_open_row g col).getD (g.rows - 1)
    let g1 := setCell g row col 1
    let r := child beta g1
    let g2 := setCell r.1 row col 0
    let s := r.2.2
    let value' := if s < value then s else value
    let best' := if s < value then col else best
    let beta' := min beta value'
    if beta' ≤ alpha then (g2, some best', value')
    else minStep child alpha rest g2 beta' value' best'

/-- ConnectFour.minimax: returns the final board (identical to the
input, as proven below), the chosen column (none at leaves, as the
Python None) and the score. -/
def minimax : Nat → Score → Score → Bool → Game → Game × Option Nat × Score
  | 0, _, _, _, g => (g, none, leafScore g)
  | depth + 1, alpha, beta, maximizing, g =>
    if isTerminal g then (g, none, leafScore g)
    else
      let vm := get_valid_moves g
      if maximizing then
        maxStep (fun a g' => minimax depth a beta false g') beta vm g alpha ⊥ (vm.headD 0)
      else
        minStep (fun b g' => minimax depth alpha b true g') alpha vm g beta ⊤ (vm.headD 0)

/-- The immediate win and immediate block scans of
ConnectFour.get_ai_move: drop a piece of player into each column in
turn, test check_winner, erase the piece, and stop at the first
winning column. -/
def scanWin (g : Game) (player : Nat) : List Nat → Game × Option Nat
  | [] => (g, none)
  | col :: rest =>
    let row := (get_next_open_row g col).getD (g.rows - 1)
    let g1 := setCell g row col player
    if check_winner g1 player then (setCell g1 row col 0, some col)
    else scanWin (setCell g1 row col 0) player rest

/-- ConnectFour.get_ai_move: immediate win scan for player 2, then
immediate block scan for player 1, then minimax with the full
window. -/
def get_ai_move (g : Game) (depth : Nat) : Game × Option Nat :=
  match scanWin g 2 (get_valid_moves g) with
  | (g1, some col) => (g1, some col)
  | (g1, none) =>
    match scanWin g1 1 (get_valid_moves g1) with
    | (g2, some col) => (g2, some col)
    | (g2, none) =>
      let r := minimax depth ⊥ ⊤ true g2
      (r.1, r.2.1)

/-- The maximizing loop with the pruning break removed: identical to
maxStep except that nothing is pruned (so alpha and beta, which would
then be dead, are dropped). -/
def npMaxStep (child : Game → Game × Option Nat × Score) :
    List Nat → Game → Score → Nat → Game × Option Nat × Score
  | [], g, value, best => (g, some best, value)
  | col :: rest, g, value, best =>
    let row := (get_next_open_row g col).getD (g.rows - 1)
    let g1 := setCell g row col 2
    let r := child g1
    let g2 := setCell r.1 row col 0
    let s := r.2.2
    npMaxStep child rest g2 (if value < s then s else value)
      (if value < s then col else best)

/-- The minimizing loop with the pruning break removed. -/
def npMinStep (child : Game → Game × Option Nat × Score) :
    List Nat → Game → Score → Nat → Game × Option Nat × Score
  | [], g, value, best => (g, some best, value)
  | col :: rest, g, value, best =>
    let row := (get_next_open_row g col).getD (g.rows - 1)
    let g1 := setCell g row col 1
    let r := child g1
    let g2 := setCell r.1 row col 0
    let s := r.2.2
    npMinStep child rest g2 (if s < value then s else value)
      (if s < value then col else best)

/-- ConnectFour.minimax with the alpha-beta pruning break removed:
exhaustive minimax at the same depth. -/
def minimaxNP : Nat → Bool → Game → Game × Option Nat × Score
  | 0, _, g => (g, none, leafScore g)
  | depth + 1, maximizing, g =>
    if isTerminal g then (g, none, leafScore g)
    else
      let vm := get_valid_moves g
      if maximizing then
        npMaxStep (fun g' => minimaxNP depth false g') vm g ⊥ (vm.headD 0)
      else
        npMinStep (fun g' => minimaxNP depth true g') vm g ⊤ (vm.headD 0)

/-! ### List update helpers -/

theorem listGetD_set_self {α : Type} (l : List α) (i : Nat) (x d : α)
    (h : i < l.length) : (l.set i x).getD i d = x := by
  induction l generalizing i with
  | nil => simp at h
  | cons a t ih =>
    cases i with
    | zero => rfl
    | succ j => exact ih j (Nat.lt_of_succ_lt_succ h)

theorem listGetD_set_ne {α : Type} (l : List α) (i j : Nat) (x d : α)
    (h : i ≠ j) : (l.set i x).getD j d = l.getD j d := by
  induction l generalizing i j with
  | nil => rfl
  | cons a t ih =>
    cases i with
    | zero =>
      cases j with
      | zero => exact absurd rfl h
      | succ j' => rfl
    | succ i' =>
      cases j with
      | zero => rfl
      | succ j' => exact ih i' j' (fun hc => h (by rw [hc]))

theorem listSet_getD_self {α : Type} (l : List α) (i : Nat) (d : α) :
    l.set i (l.getD i d) = l := by
  induction l generalizing i with
  | nil => rfl
  | cons a t ih =>
    cases i with
    | zero => rfl
    | succ j => simpa using ih j

/-! ### Cell update lemmas -/

theorem setCell_oob (g : Game) (r c v : Nat) (h : g.board.length ≤ r) :
    setCell g r c v = g := by
  obtain ⟨rows, cols, B⟩ := g
  simp only [setCell, Game.mk.injEq, true_and]
  exact List.set_eq_of_length_le h

/-- Writing a value into an empty cell and then writing 0 back restores
the board exactly. -/
theorem setCell_cancel (g : Game) (r c v : Nat) (h : cell g r c = 0) :
    setCell (setCell g r c v) r c 0 = g := by
  by_cases hr : r < g.board.length
  · obtain ⟨rows, cols, B⟩ := g
    simp only [cell] at h
    simp only [setCell, Game.mk.injEq, true_and]
    simp only at hr
    rw [listGetD_set_self B r _ _ hr, List.set_set, List.set_set]
    have hrow : (B.getD r []).set c 0 = B.getD r [] := by
      conv_lhs => rw [← h]
      exact listSet_getD_self (B.getD r []) c 0
    rw [hrow]
    exact listSet_getD_self B r []
  · have h1 : setCell g r c v = g := setCell_oob g r c v (Nat.le_of_not_lt hr)
    rw [h1]
    exact setCell_oob g r c 0 (Nat.le_of_not_lt hr)

theorem cell_setCell_ne (g : Game) (r0 c0 v r c : Nat)
    (h : r ≠ r0 ∨ c ≠ c0) : cell (setCell g r0 c0 v) r c = cell g r c := by
  by_cases hr' : r0 < g.board.length
  · obtain ⟨rows, cols, B⟩ := g
    simp only [cell, setCell]
    rcases h with h | h
    · rw [listGetD_set_ne B r0 r _ _ (fun hc => h hc.symm)]
    · by_cases hrr : r = r0
      · subst hrr
        rw [listGetD_set_self B r _ _ hr', listGetD_set_ne _ c0 c _ _ (fun hc => h hc.symm)]
      · rw [listGetD_set_ne B r0 r _ _ (fun hc => hrr hc.symm)]
  · rw [setCell_oob g r0 c0 v (Nat.le_of_not_lt hr')]

/-! ### Open row lemmas -/

theorem scanOpenRow_some (g : Game) (col : Nat) :
    ∀ fuel row, scanOpenRow g col fuel = some row →
    row < fuel ∧ cell g row col = 0 ∧
    ∀ r', row < r' → r' < fuel → cell g r' col ≠ 0 := by
  intro fuel
  induction fuel with
  | zero => intro row h; simp [scanOpenRow] at h
  | succ f ih =>
    intro row h
    simp only [scanOpenRow] at h
    by_cases h0 : cell g f col = 0
    · rw [if_pos h0] at h
      obtain rfl : f = row := by simpa using h
      exact ⟨Nat.lt_succ_self _, h0, fun r' hlt hlt' => absurd (Nat.lt_of_lt_of_le hlt (Nat.le_of_lt_succ hlt')) (Nat.lt_irrefl _)⟩
    · rw [if_neg h0] at h
      obtain ⟨hfu, hc, hab⟩ := ih row h
      refine ⟨Nat.lt_succ_of_lt hfu, hc, fun r' hlt hlt' => ?_⟩
      by_cases hrf : r' = f
      · rw [hrf]; exact h0
      · exact hab r' hlt (Nat.lt_of_le_of_ne (Nat.le_of_lt_succ hlt') hrf)

theorem scanOpenRow_none (g : Game) (col : Nat) :
    ∀ fuel, scanOpenRow g col fuel = none → ∀ r, r < fuel → cell g r col ≠ 0 := by
  intro fuel
  induction fuel with
  | zero => intro h r hr; exact absurd hr (Nat.not_lt_zero r)
  | succ f ih =>
    intro h r hr
    simp only [scanOpenRow] at h
    by_cases h0 : cell g f col = 0
    · rw [if_pos h0] at h; exact absurd h (by simp)
    · rw [if_neg h0] at h
      by_cases hrf : r = f
      · rw [hrf]; exact h0
      · exact ih h r (Nat.lt_of_le_of_ne (Nat.le_of_lt_succ hr) hrf)

/-- The contents of is_valid_move as a conjunction. -/
theorem is_valid_move_iff (g : Game) (col : Nat) :
    is_valid_move g col = true ↔ col < g.cols ∧ cell g 0 col = 0 := by
  simp [is_valid_move]

/-- On a valid column the row chosen by search (the open row, with the
Python index -1 transcribed as rows - 1) holds an empty cell. -/
theorem open_row_zero (g : Game) (col : Nat) (h : is_valid_move g col = true) :
    cell g ((get_next_open_row g col).getD (g.rows - 1)) col = 0 := by
  obtain ⟨-, htop⟩ := (is_valid_move_iff g col).mp h
  cases hscan : get_next_open_row g col with
  | some row =>
    simp only [Option.getD]
    exact (scanOpenRow_some g col g.rows row hscan).2.1
  | none =>
    simp only [Option.getD]
    have hall := scanOpenRow_none g col g.rows hscan
    cases hrows : g.rows with
    | zero => simpa [hrows] using htop
    | succ n =>
      exact absurd htop (hall 0 (by rw [hrows]; exact Nat.succ_pos n))

/-- Every element of get_valid_moves is a valid move. -/
theorem mem_valid_moves (g : Game) :
    ∀ c ∈ get_valid_moves g, is_valid_move g c = true := by
  intro c hc
  exact (List.mem_filter.mp hc).2

/-! ### Board restoration (the push/pop discipline of the search) -/

theorem maxStep_fst (ch : Score → Game → Game × Option Nat × Score) (beta : Score)
    (hch : ∀ a g', (ch a g').1 = g') :
    ∀ (moves : List Nat) (g : Game) (alpha value : Score) (best : Nat),
    (∀ c ∈ moves, is_valid_move g c = true) →
    (maxStep ch beta moves g alpha value best).1 = g := by
  intro moves
  induction moves with
  | nil => intro g alpha value best _; rfl
  | cons col rest ih =>
    intro g alpha value best hval
    have hv : is_valid_move g col = true := hval col (List.mem_cons_self _ _)
    have h0 := open_row_zero g col hv
    have hkey : setCell (ch alpha (setCell g ((get_next_open_row g col).getD (g.rows - 1)) col 2)).1
        ((get_next_open_row g col).getD (g.rows - 1)) col 0 = g := by
      rw [hch]; exact setCell_cancel g _ col 2 h0
    simp only [maxStep, hkey]
    split <;> split <;>
      first
        | rfl
        | exact ih g _ _ _ (fun c hc => hval c (List.mem_cons_of_mem _ hc))

theorem minStep_fst (ch : Score → Game → Game × Option Nat × Score) (alpha : Score)
    (hch : ∀ b g', (ch b g').1 = g') :
    ∀ (moves : List Nat) (g : Game) (beta value : Score) (best : Nat),
    (∀ c ∈ moves, is_valid_move g c = true) →
    (minStep ch alpha moves g beta value best).1 = g := by
  intro moves
  induction moves with
  | nil => intro g beta value best _; rfl
  | cons col rest ih =>
    intro g beta value best hval
    have hv : is_valid_move g col = true := hval col (List.mem_cons_self _ _)
    have h0 := open_row_zero g col hv
    have hkey : setCell (ch beta (setCell g ((get_next_open_row g col).getD (g.rows - 1)) col 1)).1
        ((get_next_open_row g col).getD (g.rows - 1)) col 0 = g := by
      rw [hch]; exact setCell_cancel g _ col 1 h0
    simp only [minStep, hkey]
    split <;> split <;>
      first
        | rfl
        | exact ih g _ _ _ (fun c hc => hval c (List.mem_cons_of_mem _ hc))

/-- Every call to minimax hands back the board it was given. -/
theorem minimax_fst :
    ∀ (depth : Nat) (alpha beta : Score) (maximizing : Bool) (g : Game),
    (minimax depth alpha beta maximizing g).1 = g := by
  intro depth
  induction depth with
  | zero => intro alpha beta m g; rfl
  | succ d ih =>
    intro alpha beta m g
    simp only [minimax]
    split
    · rfl
    · split
      · exact maxStep_fst _ beta (fun a g' => ih a beta false g') _ g _ _ _ (mem_valid_moves g)
      · exact minStep_fst _ alpha (fun b g' => ih alpha b true g') _ g _ _ _ (mem_valid_moves g)

/-! ### The immediate win and block scans -/

/-- Dropping a piece of p into col (at the row search would use) makes
p a winner.  This is exactly the test one iteration of the scans in
get_ai_move performs. -/
def winsImmediately (g : Game) (p col : Nat) : Bool :=
  check_winner (setCell g ((get_next_open_row g col).getD (g.rows - 1)) col p) p

/-- On a list of valid columns the scan restores the board and returns
the first column whose simulated drop wins for p. -/
theorem scanWin_spec (g : Game) (p : Nat) :
    ∀ moves, (∀ c ∈ moves, is_valid_move g c = true) →
    scanWin g p moves = (g, moves.find? (winsImmediately g p)) := by
  intro moves
  induction moves with
  | nil => intro _; rfl
  | cons col rest ih =>
    intro hval
    have hv := hval col (List.mem_cons_self _ _)
    have h0 := open_row_zero g col hv
    have hkey : setCell (setCell g ((get_next_open_row g col).getD (g.rows - 1)) col p)
        ((get_next_open_row g col).getD (g.rows - 1)) col 0 = g :=
      setCell_cancel g _ col p h0
    cases hw : winsImmediately g p col with
    | true =>
      have hw' : check_winner (setCell g ((get_next_open_row g col).getD (g.rows - 1)) col p) p
          = true := hw
      simp only [scanWin, hkey, hw', if_true]
      rw [List.find?_cons_of_pos rest hw]
    | false =>
      have hw' : check_winner (setCell g ((get_next_open_row g col).getD (g.rows - 1)) col p) p
          = false := hw
      simp only [scanWin, hkey, hw', if_false]
      rw [List.find?_cons_of_neg rest (by rw [hw]; exact Bool.false_ne_true)]
      exact ih (fun c hc => hval c (List.mem_cons_of_mem _ hc))

/-- get_ai_move, rewritten over the unchanged board: first winning
column if any, else first blocking column if any, else the minimax
column. -/
theorem get_ai_move_eq (g : Game) (depth : Nat) :
    get_ai_move g depth =
      match (get_valid_moves g).find? (winsImmediately g 2) with
      | some col => (g, some col)
      | none =>
        match (get_valid_moves g).find? (winsImmediately g 1) with
        | some col => (g, some col)
        | none => (g, (minimax depth ⊥ ⊤ true g).2.1) := by
  unfold get_ai_move
  rw [scanWin_spec g 2 _ (mem_valid_moves g)]
  cases hf1 : (get_valid_moves g).find? (winsImmediately g 2) with
  | some col => rfl
  | none =>
    simp only
    rw [scanWin_spec g 1 _ (mem_valid_moves g)]
    cases hf2 : (get_valid_moves g).find? (winsImmediately g 1) with
    | some col => rfl
    | none => simp only [minimax_fst]

/-- get_ai_move hands back the board it was given. -/
theorem get_ai_move_fst (g : Game) (depth : Nat) : (get_ai_move g depth).1 = g := by
  rw [get_ai_move_eq]
  cases (get_valid_moves g).find? (winsImmediately g 2) with
  | some col => rfl
  | none =>
    cases (get_valid_moves g).find? (winsImmediately g 1) with
    | some col => rfl
    | none => rfl

/-- C1: for every board state and every depth, the board after a
top-level call to get_ai_move(depth) or minimax(depth, alpha, beta,
maximizing) is identical to the board before the call: every
exploratory placement of the search, including on pruning exits and
in the immediate-win and immediate-block scans, is undone before the
call returns. -/
theorem claim1_board_restored (g : Game) (depth : Nat) (alpha beta : Score)
    (maximizing : Bool) :
    (minimax depth alpha beta maximizing g).1 = g ∧ (get_ai_move g depth).1 = g :=
  ⟨minimax_fst depth alpha beta maximizing g, get_ai_move_fst g depth⟩

/-! ### Terminal and leaf behaviour of minimax -/

/-- At depth 0 or on a terminal position minimax returns at once with
no column and the leaf score. -/
theorem minimax_leaf (depth : Nat) (alpha beta : Score) (m : Bool) (g : Game)
    (h : depth = 0 ∨ check_winner g 1 = true ∨ check_winner g 2 = true ∨
      is_board_full g = true) :
    minimax depth alpha beta m g = (g, none, leafScore g) := by
  cases depth with
  | zero => rfl
  | succ d =>
    have hterm : isTerminal g = true := by
      rcases h with h | h | h | h
      · exact absurd h (Nat.succ_ne_zero d)
      · simp [isTerminal, h]
      · simp [isTerminal, h]
      · simp [isTerminal, h]
    simp [minimax, hterm]

/-- C5: for every board state, minimax returns immediately with no
chosen column whenever depth = 0 or a terminal condition holds, and
its score is, in priority order: +1000000000 if PlayerB has
four-in-a-row, else -1000000000 if PlayerA has four-in-a-row, else 0
if the board is full, else evaluateBoard(PlayerB) - always from the
fixed identity of player 2, whatever the maximizing flag. -/
theorem claim5_terminal_scores (g : Game) (depth : Nat) (alpha beta : Score) (m : Bool)
    (h : depth = 0 ∨ check_winner g 1 = true ∨ check_winner g 2 = true ∨
      is_board_full g = true) :
    minimax depth alpha beta m g = (g, none,
      if check_winner g 2 then sc 1000000000
      else if check_winner g 1 then sc (-1000000000)
      else if is_board_full g then sc 0
      else sc (evaluate_board g 2)) :=
  minimax_leaf depth alpha beta m g h

/-- Witness for C5: a depth-0 call on the empty 4 by 4 board. -/
theorem claim5_witness :
    minimax 0 ⊥ ⊤ true (initGame 4 4) = (initGame 4 4, none,
      if check_winner (initGame 4 4) 2 then sc 1000000000
      else if check_winner (initGame 4 4) 1 then sc (-1000000000)
      else if is_board_full (initGame 4 4) then sc 0
      else sc (evaluate_board (initGame 4 4) 2)) :=
  claim5_terminal_scores (initGame 4 4) 0 ⊥ ⊤ true (Or.inl rfl)

/-! ### C7: win detection against the geometric property -/

/-- The stated property: four consecutive cells of player p along some
horizontal, vertical, or diagonal (either direction) line inside the
grid. -/
def fourInRow (g : Game) (p : Nat) : Prop :=
  (∃ r c, r < g.rows ∧ c + 3 < g.cols ∧ ∀ i < 4, cell g r (c + i) = p) ∨
  (∃ r c, r + 3 < g.rows ∧ c < g.cols ∧ ∀ i < 4, cell g (r + i) c = p) ∨
  (∃ r c, r + 3 < g.rows ∧ c + 3 < g.cols ∧ ∀ i < 4, cell g (r + i) (c + i) = p) ∨
  (∃ r c, r + 3 < g.rows ∧ 3 ≤ c ∧ c < g.cols ∧ ∀ i < 4, cell g (r + i) (c - i) = p)

/-- C7: for every board state and every player, check_winner returns
true exactly when four consecutive cells of that player exist along a
horizontal, vertical, or either diagonal line of the grid. -/
theorem claim7_check_winner_iff (g : Game) (p : Nat) :
    check_winner g p = true ↔ fourInRow g p := by
  simp only [check_winner, fourInRow, Bool.or_eq_true, List.any_eq_true,
    List.all_eq_true, List.mem_range, List.mem_range'_1, beq_iff_eq]
  constructor
  · rintro (((⟨r, hr, c, hc, hall⟩ | ⟨r, hr, c, hc, hall⟩) | ⟨r, hr, c, hc, hall⟩) |
      ⟨r, hr, c, ⟨hc3, hclt⟩, hall⟩)
    · exact Or.inl ⟨r, c, hr, by omega, fun i hi => hall i hi⟩
    · exact Or.inr (Or.inl ⟨r, c, by omega, hc, fun i hi => hall i hi⟩)
    · exact Or.inr (Or.inr (Or.inl ⟨r, c, by omega, by omega, fun i hi => hall i hi⟩))
    · exact Or.inr (Or.inr (Or.inr ⟨r, c, by omega, by omega, by omega,
        fun i hi => hall i hi⟩))
  · rintro (⟨r, c, hr, hc, hall⟩ | ⟨r, c, hr, hc, hall⟩ | ⟨r, c, hr, hc, hall⟩ |
      ⟨r, c, hr, hc3, hc, hall⟩)
    · exact Or.inl (Or.inl (Or.inl ⟨r, hr, c, by omega, fun i hi => hall i hi⟩))
    · exact Or.inl (Or.inl (Or.inr ⟨r, by omega, c, hc, fun i hi => hall i hi⟩))
    · exact Or.inl (Or.inr ⟨r, by omega, c, by omega, fun i hi => hall i hi⟩)
    · exact Or.inr ⟨r, by omega, c, ⟨by omega, by omega⟩, fun i hi => hall i hi⟩

/-! ### C6: the evaluator against the stated formula -/

/-- Modelled from the words of the spec: the window score as five
mutually exclusive cases (+100, +5, +2, -4, else 0). -/
def specWindowScore (window : List Nat) (player : Nat) : Int :=
  if window.count player = 4 then 100
  else if window.count player = 3 ∧ window.count 0 = 1 then 5
  else if window.count player = 2 ∧ window.count 0 = 2 then 2
  else if window.count (3 - player) = 3 ∧ window.count 0 = 1 then -4
  else 0

/-- Modelled from the words of the spec: 3 times the center-column
count plus the sum of the window scores of every length-4 window along
the four axes, with no other terms. -/
def specEvaluateBoard (g : Game) (player : Nat) : Int :=
  3 * (((List.range g.rows).map (fun row => cell g row (g.cols / 2))).count player : Int)
  + ((List.range g.rows).map (fun row =>
      ((List.range (g.cols - 3)).map (fun col =>
        specWindowScore ((List.range 4).map fun i => cell g row (col + i)) player)).sum)).sum
  + ((List.range (g.rows - 3)).map (fun row =>
      ((List.range g.cols).map (fun col =>
        specWindowScore ((List.range 4).map fun i => cell g (row + i) col) player)).sum)).sum
  + ((List.range (g.rows - 3)).map (fun row =>
      ((List.range (g.cols - 3)).map (fun col =>
        specWindowScore ((List.range 4).map fun i => cell g (row + i) (col + i)) player)).sum)).sum
  + ((List.range (g.rows - 3)).map (fun row =>
      ((List.range' 3 (g.cols - 3)).map (fun col =>
        specWindowScore ((List.range 4).map fun i => cell g (row + i) (col - i)) player)).sum)).sum

/-- Counts of three pairwise different values never exceed the length
of the list. -/
theorem count_three_le (w : List Nat) (a b c : Nat)
    (hab : a ≠ b) (hac : a ≠ c) (hbc : b ≠ c) :
    w.count a + w.count b + w.count c ≤ w.length := by
  induction w with
  | nil => simp
  | cons x t ih =>
    simp only [List.count_cons, List.length_cons, beq_iff_eq]
    by_cases hxa : x = a <;> by_cases hxb : x = b <;> by_cases hxc : x = c <;>
      simp_all <;> omega

/-- On a genuine length-4 window and a genuine player, the additive
window score of the source equals the exclusive five-case form of the
spec: the -4 penalty can never combine with a positive case. -/
theorem evaluate_window_eq_spec (w : List Nat) (p : Nat)
    (hp : p = 1 ∨ p = 2) (hl : w.length = 4) :
    evaluate_window w p = specWindowScore w p := by
  have hcount : w.count p + w.count (3 - p) + w.count 0 ≤ 4 := by
    rw [← hl]
    rcases hp with rfl | rfl
    · exact count_three_le w 1 2 0 (by decide) (by decide) (by decide)
    · exact count_three_le w 2 1 0 (by decide) (by decide) (by decide)
  unfold evaluate_window specWindowScore
  split_ifs <;> omega

/-- C6: for every board state and every player, evaluateBoard(player)
equals 3 times the count of the pieces of player in the middle column
cols / 2 plus the sum, over every length-4 window along the four axes,
of the stated window score (+100, +5, +2, -4, else 0), with no other
terms. -/
theorem claim6_evaluate_board (g : Game) (p : Nat) (hp : p = 1 ∨ p = 2) :
    evaluate_board g p = specEvaluateBoard g p := by
  have hw : ∀ f : Nat → Nat,
      evaluate_window ((List.range 4).map f) p = specWindowScore ((List.range 4).map f) p :=
    fun f => evaluate_window_eq_spec _ p hp (by simp)
  unfold evaluate_board specEvaluateBoard
  simp only [hw]
  ring

/-- Witness for C6: the evaluator identity at a concrete board. -/
theorem claim6_witness :
    evaluate_board (⟨4, 4, [[0, 0, 0, 0], [0, 0, 0, 0], [0, 0, 0, 0], [2, 2, 2, 0]]⟩ : Game) 2 =
      specEvaluateBoard (⟨4, 4, [[0, 0, 0, 0], [0, 0, 0, 0], [0, 0, 0, 0], [2, 2, 2, 0]]⟩ : Game) 2 :=
  claim6_evaluate_board _ 2 (Or.inr rfl)

/-! ### C8: the gravity invariant -/

/-- Every column has its occupied cells in a contiguous block at the
bottom: an occupied cell never sits above an empty cell of the same
column (row indices grow downward, so the cell below r is r + 1). -/
def gravity (g : Game) : Bool :=
  (List.range g.cols).all fun c =>
    (List.range g.rows).all fun r =>
      (cell g r c == 0) || decide (g.rows ≤ r + 1) || (cell g (r + 1) c != 0)

theorem gravity_iff (g : Game) :
    gravity g = true ↔
      ∀ c < g.cols, ∀ r, r + 1 < g.rows → cell g r c ≠ 0 → cell g (r + 1) c ≠ 0 := by
  simp only [gravity, List.all_eq_true, List.mem_range, Bool.or_eq_true, beq_iff_eq,
    decide_eq_true_eq, bne_iff_ne]
  constructor
  · intro h c hc r hr hocc
    rcases h c hc r (by omega) with (h' | h') | h'
    · exact absurd h' hocc
    · omega
    · exact h'
  · intro h c hc r hr
    by_cases hocc : cell g r c = 0
    · exact Or.inl (Or.inl hocc)
    · by_cases hr1 : g.rows ≤ r + 1
      · exact Or.inl (Or.inr hr1)
      · exact Or.inr (h c hc r (by omega) hocc)

theorem listGetD_replicate {α : Type} (n i : Nat) (x d : α) :
    (List.replicate n x).getD i d = if i < n then x else d := by
  induction n generalizing i with
  | zero => simp
  | succ m ih =>
    cases i with
    | zero => simp
    | succ j =>
      rw [List.replicate_succ, List.getD_cons_succ, ih j]
      simp

theorem cell_initGame (rows cols r c : Nat) : cell (initGame rows cols) r c = 0 := by
  unfold cell initGame
  simp only
  rw [listGetD_replicate]
  split
  · rw [listGetD_replicate]; split <;> rfl
  · rfl

/-- Boards reachable from the initial empty board by any sequence of
make_move calls. -/
inductive Reachable : Game → Prop where
  | base (rows cols : Nat) : Reachable (initGame rows cols)
  | step (g : Game) (col player : Nat) (h : Reachable g) :
      Reachable (make_move g col player).1

/-- Each make_move call preserves the gravity invariant. -/
theorem gravity_make_move (g : Game) (col player : Nat)
    (h : gravity g = true) : gravity (make_move g col player).1 = true := by
  unfold make_move
  split
  case isFalse => exact h
  case isTrue hvalid =>
    cases hscan : get_next_open_row g col with
    | none => exact h
    | some row =>
      obtain ⟨hrowlt, hrow0, habove⟩ := scanOpenRow_some g col g.rows row hscan
      simp only
      rw [gravity_iff] at h ⊢
      intro c hc r hr hocc
      by_cases hcc : c = col
      · by_cases hrr : r = row
        · rw [cell_setCell_ne g row col player (r + 1) c (Or.inl (by omega))]
          rw [hcc]
          exact habove (r + 1) (by omega) hr
        · rw [cell_setCell_ne g row col player r c (Or.inl hrr)] at hocc
          by_cases hr1 : r + 1 = row
          · exact absurd (show cell g (r + 1) c = 0 by rw [hr1, hcc]; exact hrow0)
              (h c hc r hr hocc)
          · rw [cell_setCell_ne g row col player (r + 1) c (Or.inl hr1)]
            exact h c hc r hr hocc
      · rw [cell_setCell_ne g row col player r c (Or.inr hcc)] at hocc
        rw [cell_setCell_ne g row col player (r + 1) c (Or.inr hcc)]
        exact h c hc r hr hocc

/-- C8: every board reachable from the empty board by a sequence of
make_move calls satisfies the gravity invariant: in every column the
occupied cells form a contiguous block ending at the bottom row, with
no empty cell below an occupied cell. -/
theorem claim8_gravity (g : Game) (h : Reachable g) : gravity g = true := by
  induction h with
  | base rows cols =>
    rw [gravity_iff]
    intro c hc r hr hocc
    exact absurd (cell_initGame rows cols r c) hocc
  | step g col player h ih => exact gravity_make_move g col player ih

/-- Witness for C8: the board after dropping one piece into column 2
of the empty 4 by 4 board satisfies gravity. -/
theorem claim8_witness : gravity (make_move (initGame 4 4) 2 1).1 = true :=
  claim8_gravity _ (Reachable.step (initGame 4 4) 2 1 (Reachable.base 4 4))

/-! ### C3 and C4: the immediate-win and immediate-block policies -/

theorem find?_filter_range' (P pred : Nat → Bool) (c : Nat)
    (hP : P c = true) (hpred : pred c = true) :
    ∀ (k s : Nat), s ≤ c → c < s + k →
    (∀ c', s ≤ c' → c' < c → P c' = true → pred c' = false) →
    ((List.range' s k).filter P).find? pred = some c := by
  intro k
  induction k with
  | zero => intro s hs hck _; omega
  | succ k ih =>
    intro s hs hck hmin
    rw [List.range'_succ]
    by_cases hPs : P s = true
    · rw [List.filter_cons_of_pos hPs]
      by_cases hsc : s = c
      · subst hsc
        exact List.find?_cons_of_pos _ hpred
      · have hslt : s < c := Nat.lt_of_le_of_ne hs hsc
        rw [List.find?_cons_of_neg _
          (by rw [hmin s (Nat.le_refl s) hslt hPs]; exact Bool.false_ne_true)]
        exact ih (s + 1) (by omega) (by omega)
          (fun c' h1 h2 hp => hmin c' (by omega) h2 hp)
    · rw [List.filter_cons_of_neg (by simpa using hPs)]
      have hsc : s ≠ c := fun hh => hPs (hh ▸ hP)
      exact ih (s + 1) (by omega) (by omega)
        (fun c' h1 h2 hp => hmin c' (by omega) h2 hp)

/-- The first match of pred over the ascending filtered range is the
least index satisfying both predicates. -/
theorem find?_filter_range (n : Nat) (P pred : Nat → Bool) (c : Nat)
    (hc : c < n) (hP : P c = true) (hpred : pred c = true)
    (hmin : ∀ c' < c, P c' = true → pred c' = false) :
    ((List.range n).filter P).find? pred = some c := by
  rw [List.range_eq_range']
  exact find?_filter_range' P pred c hP hpred n 0 (Nat.zero_le c) (by omega)
    (fun c' _ h2 hp => hmin c' h2 hp)

theorem find?_filter_range_none (n : Nat) (P pred : Nat → Bool)
    (h : ∀ c < n, P c = true → pred c = false) :
    ((List.range n).filter P).find? pred = none := by
  rw [List.find?_eq_none]
  intro x hx
  obtain ⟨hxr, hxP⟩ := List.mem_filter.mp hx
  rw [h x (List.mem_range.mp hxr) hxP]
  exact Bool.false_ne_true

/-- C3: if some valid column completes four-in-a-row for PlayerB when
PlayerB's piece is dropped there, get_ai_move returns the
lowest-indexed such column, for every depth (the minimax search and
its depth play no part in the answer). -/
theorem claim3_immediate_win (g : Game) (depth c : Nat)
    (hvalid : is_valid_move g c = true)
    (hwin : winsImmediately g 2 c = true)
    (hmin : ∀ c' < c, is_valid_move g c' = true → winsImmediately g 2 c' = false) :
    (get_ai_move g depth).2 = some c := by
  have hfind : (get_valid_moves g).find? (winsImmediately g 2) = some c := by
    unfold get_valid_moves
    exact find?_filter_range g.cols _ _ c ((is_valid_move_iff g c).mp hvalid).1
      hvalid hwin hmin
  rw [get_ai_move_eq, hfind]

/-- Witness for C3: three PlayerB pieces on the bottom row of a 4 by 4
board; column 3 completes the row and is returned at any depth. -/
theorem claim3_witness :
    (get_ai_move (⟨4, 4, [[0, 0, 0, 0], [0, 0, 0, 0], [0, 0, 0, 0], [2, 2, 2, 0]]⟩ : Game) 7).2
      = some 3 :=
  claim3_immediate_win _ 7 3 (by decide) (by decide) (by decide)

/-- C4: if no valid column gives PlayerB an immediate win but some
valid column, filled with the piece of PlayerA, would complete
four-in-a-row for PlayerA, get_ai_move returns the lowest-indexed such
blocking column, for every depth. -/
theorem claim4_immediate_block (g : Game) (depth c : Nat)
    (hnowin : ∀ c' < g.cols, is_valid_move g c' = true → winsImmediately g 2 c' = false)
    (hvalid : is_valid_move g c = true)
    (hblock : winsImmediately g 1 c = true)
    (hmin : ∀ c' < c, is_valid_move g c' = true → winsImmediately g 1 c' = false) :
    (get_ai_move g depth).2 = some c := by
  have hfind1 : (get_valid_moves g).find? (winsImmediately g 2) = none := by
    unfold get_valid_moves
    exact find?_filter_range_none g.cols _ _ hnowin
  have hfind2 : (get_valid_moves g).find? (winsImmediately g 1) = some c := by
    unfold get_valid_moves
    exact find?_filter_range g.cols _ _ c ((is_valid_move_iff g c).mp hvalid).1
      hvalid hblock hmin
  rw [get_ai_move_eq, hfind1, hfind2]

/-- Witness for C4: three PlayerA pieces on the bottom row of a 4 by 4
board; PlayerB cannot win at once and column 3 blocks. -/
theorem claim4_witness :
    (get_ai_move (⟨4, 4, [[0, 0, 0, 0], [0, 0, 0, 0], [0, 0, 0, 0], [1, 1, 1, 0]]⟩ : Game) 7).2
      = some 3 :=
  claim4_immediate_block _ 7 3 (by decide) (by decide) (by decide) (by decide)

/-! ### C9: search on a board with no valid moves -/

/-- No valid moves forces a full board (the top cell of every column
is occupied). -/
theorem full_of_no_valid (g : Game) (h : get_valid_moves g = []) :
    is_board_full g = true := by
  unfold is_board_full
  rw [List.all_eq_true]
  intro c hc
  rw [bne_iff_ne]
  intro hcell
  have hvm : c ∈ get_valid_moves g := by
    unfold get_valid_moves
    exact List.mem_filter.mpr ⟨hc, by
      rw [is_valid_move_iff]
      exact ⟨List.mem_range.mp hc, hcell⟩⟩
  rw [h] at hvm
  exact absurd hvm (List.not_mem_nil c)

/-- C9 counterexample: on the full 1 by 1 board there is no valid
move, yet neither minimax nor get_ai_move returns the fallback column
0 of the guarded initialization; both return no column at all. -/
theorem claim9_counterexample :
    get_valid_moves (⟨1, 1, [[1]]⟩ : Game) = [] ∧
    (minimax 4 ⊥ ⊤ true (⟨1, 1, [[1]]⟩ : Game)).2.1 = none ∧
    (get_ai_move (⟨1, 1, [[1]]⟩ : Game) 4).2 = none ∧
    ¬ (get_ai_move (⟨1, 1, [[1]]⟩ : Game) 4).2 = some 0 := by
  refine ⟨rfl, ?_, ?_, ?_⟩ <;> decide

/-- C9 as amended: called on a board with no valid moves, the search
returns no column at all (the Python None), for every depth and every
alpha/beta window: the board is then full, so the terminal case fires
before the move loop, and the guarded fallback initialization of the
best column never indexes the empty valid-move sequence. -/
theorem claim9_no_moves (g : Game) (depth : Nat) (alpha beta : Score)
    (m : Bool) (h : get_valid_moves g = []) :
    (minimax depth alpha beta m g).2.1 = none ∧ (get_ai_move g depth).2 = none := by
  have hfull : is_board_full g = true := full_of_no_valid g h
  have hmm : ∀ a b : Score, ∀ m' : Bool, (minimax depth a b m' g).2.1 = none := by
    intro a b m'
    rw [minimax_leaf depth a b m' g (Or.inr (Or.inr (Or.inr hfull)))]
  refine ⟨hmm alpha beta m, ?_⟩
  rw [get_ai_move_eq, h]
  simp only [List.find?_nil]
  exact hmm ⊥ ⊤ true

/-- Witness for C9 as amended: a full 2 by 1 board. -/
theorem claim9_witness :
    (minimax 4 ⊥ ⊤ true (⟨2, 1, [[2], [1]]⟩ : Game)).2.1 = none ∧
    (get_ai_move (⟨2, 1, [[2], [1]]⟩ : Game) 4).2 = none :=
  claim9_no_moves (⟨2, 1, [[2], [1]]⟩ : Game) 4 ⊥ ⊤ true (by decide)

/-! ### C10: the chosen move is always valid -/

theorem valid_moves_ne_nil (g : Game) (h : is_board_full g = false) :
    get_valid_moves g ≠ [] := by
  intro hnil
  rw [full_of_no_valid g hnil] at h
  simp at h

theorem headD_mem {l : List Nat} (h : l ≠ []) : l.headD 0 ∈ l := by
  cases l with
  | nil => exact absurd rfl h
  | cons a t => exact List.mem_cons_self a t

/-- The maximizing loop returns a column drawn from its fallback or
from the iterated moves. -/
theorem maxStep_col_mem (ch : Score → Game → Game × Option Nat × Score)
    (beta : Score) (S : List Nat) :
    ∀ (moves : List Nat) (g : Game) (alpha value : Score) (best : Nat),
    best ∈ S → (∀ c ∈ moves, c ∈ S) →
    ∃ b, (maxStep ch beta moves g alpha value best).2.1 = some b ∧ b ∈ S := by
  intro moves
  induction moves with
  | nil => intro g alpha value best hb _; exact ⟨best, rfl, hb⟩
  | cons col rest ih =>
    intro g alpha value best hb hmov
    have hcol : col ∈ S := hmov col (List.mem_cons_self _ _)
    simp only [maxStep]
    split <;> split
    · exact ⟨col, rfl, hcol⟩
    · exact ih _ _ _ _ hcol (fun c hc => hmov c (List.mem_cons_of_mem _ hc))
    · exact ⟨best, rfl, hb⟩
    · exact ih _ _ _ _ hb (fun c hc => hmov c (List.mem_cons_of_mem _ hc))

/-- At depth at least 1 on a non-terminal board the maximizing root
returns a column out of the valid moves. -/
theorem minimax_root_some (g : Game) (d : Nat) (alpha beta : Score)
    (hterm : isTerminal g = false) (hfull : is_board_full g = false) :
    ∃ b, (minimax (d + 1) alpha beta true g).2.1 = some b ∧ b ∈ get_valid_moves g := by
  simp only [minimax, hterm, Bool.false_eq_true, if_false, if_true]
  exact maxStep_col_mem _ beta (get_valid_moves g) (get_valid_moves g) g alpha ⊥
    ((get_valid_moves g).headD 0) (headD_mem (valid_moves_ne_nil g hfull))
    (fun c hc => hc)

/-- C10: whenever neither player already has four-in-a-row, the board
is not full and the depth is at least 1, get_ai_move returns a column
(never the no-move value) and that column is a valid move. -/
theorem claim10_returns_valid (g : Game) (depth : Nat)
    (hw1 : check_winner g 1 = false) (hw2 : check_winner g 2 = false)
    (hfull : is_board_full g = false) (hdepth : 1 ≤ depth) :
    (get_ai_move g depth).2 ≠ none ∧
    is_valid_move g ((get_ai_move g depth).2.getD 0) = true := by
  rw [get_ai_move_eq]
  cases hf1 : (get_valid_moves g).find? (winsImmediately g 2) with
  | some col =>
    have hmem := List.mem_of_find?_eq_some hf1
    exact ⟨by simp, (List.mem_filter.mp hmem).2⟩
  | none =>
    cases hf2 : (get_valid_moves g).find? (winsImmediately g 1) with
    | some col =>
      have hmem := List.mem_of_find?_eq_some hf2
      exact ⟨by simp, (List.mem_filter.mp hmem).2⟩
    | none =>
      obtain ⟨d, rfl⟩ : ∃ d, depth = d + 1 := by
        cases depth with
        | zero => omega
        | succ d => exact ⟨d, rfl⟩
      have hterm : isTerminal g = false := by
        simp [isTerminal, hw1, hw2, hfull]
      obtain ⟨b, hb, hmem⟩ := minimax_root_some g d ⊥ ⊤ hterm hfull
      rw [hb]
      exact ⟨by simp, by simpa using (List.mem_filter.mp hmem).2⟩

/-- Witness for C10: the empty 4 by 4 board at depth 1. -/
theorem claim10_witness :
    (get_ai_move (initGame 4 4) 1).2 ≠ none ∧
    is_valid_move (initGame 4 4) ((get_ai_move (initGame 4 4) 1).2.getD 0) = true :=
  claim10_returns_valid (initGame 4 4) 1 (by decide) (by decide) (by decide) (by decide)

/-! ### C2: alpha-beta pruning never changes the root score -/

theorem bot_lt_sc (n : Int) : (⊥ : Score) < sc n := WithBot.bot_lt_coe _

theorem sc_lt_top (n : Int) : sc n < (⊤ : Score) := by
  show ((n : WithTop Int) : WithBot (WithTop Int)) < ((⊤ : WithTop Int) : WithBot (WithTop Int))
  rw [WithBot.coe_lt_coe]
  exact WithTop.coe_lt_top n

theorem if_lt_eq_max {α : Type} [LinearOrder α] (v s : α) :
    (if v < s then s else v) = max v s := by
  rcases le_or_lt s v with h | h
  · rw [if_neg (not_lt.mpr h), max_eq_left h]
  · rw [if_pos h, max_eq_right (le_of_lt h)]

theorem if_lt_eq_min {α : Type} [LinearOrder α] (v s : α) :
    (if s < v then s else v) = min v s := by
  rcases le_or_lt v s with h | h
  · rw [if_neg (not_lt.mpr h), min_eq_left h]
  · rw [if_pos h, min_eq_right (le_of_lt h)]

/-- The fail-soft relation between the score P returned by a pruned
search in the window (a, b) and the exhaustive score T: a pruned score
inside the open window is exact, a score at most alpha is an upper
bound on T, a score at least beta is a lower bound on T. -/
def KMrel (a b P T : Score) : Prop :=
  (P ≤ a → T ≤ P) ∧ (b ≤ P → P ≤ T) ∧ (a < P → P < b → P = T)

theorem KMrel_of_eq (a b P T : Score) (h : P = T) : KMrel a b P T := by
  subst h
  exact ⟨fun _ => le_refl P, fun _ => le_refl P, fun _ _ => rfl⟩

theorem npMaxStep_fst (ch : Game → Game × Option Nat × Score)
    (hch : ∀ g', (ch g').1 = g') :
    ∀ (moves : List Nat) (g : Game) (value : Score) (best : Nat),
    (∀ c ∈ moves, is_valid_move g c = true) →
    (npMaxStep ch moves g value best).1 = g := by
  intro moves
  induction moves with
  | nil => intro g value best _; rfl
  | cons col rest ih =>
    intro g value best hval
    have h0 := open_row_zero g col (hval col (List.mem_cons_self _ _))
    have hkey : setCell (ch (setCell g ((get_next_open_row g col).getD (g.rows - 1)) col 2)).1
        ((get_next_open_row g col).getD (g.rows - 1)) col 0 = g := by
      rw [hch]; exact setCell_cancel g _ col 2 h0
    simp only [npMaxStep, hkey]
    exact ih g _ _ (fun c hc => hval c (List.mem_cons_of_mem _ hc))

theorem npMinStep_fst (ch : Game → Game × Option Nat × Score)
    (hch : ∀ g', (ch g').1 = g') :
    ∀ (moves : List Nat) (g : Game) (value : Score) (best : Nat),
    (∀ c ∈ moves, is_valid_move g c = true) →
    (npMinStep ch moves g value best).1 = g := by
  intro moves
  induction moves with
  | nil => intro g value best _; rfl
  | cons col rest ih =>
    intro g value best hval
    have h0 := open_row_zero g col (hval col (List.mem_cons_self _ _))
    have hkey : setCell (ch (setCell g ((get_next_open_row g col).getD (g.rows - 1)) col 1)).1
        ((get_next_open_row g col).getD (g.rows - 1)) col 0 = g := by
      rw [hch]; exact setCell_cancel g _ col 1 h0
    simp only [npMinStep, hkey]
    exact ih g _ _ (fun c hc => hval c (List.mem_cons_of_mem _ hc))

theorem minimaxNP_fst :
    ∀ (depth : Nat) (maximizing : Bool) (g : Game),
    (minimaxNP depth maximizing g).1 = g := by
  intro depth
  induction depth with
  | zero => intro m g; rfl
  | succ d ih =>
    intro m g
    simp only [minimaxNP]
    split
    · rfl
    · split
      · exact npMaxStep_fst _ (fun g' => ih false g') _ g _ _ (mem_valid_moves g)
      · exact npMinStep_fst _ (fun g' => ih true g') _ g _ _ (mem_valid_moves g)

theorem npMaxStep_value_le (ch : Game → Game × Option Nat × Score) :
    ∀ (moves : List Nat) (g : Game) (v : Score) (b : Nat),
    v ≤ (npMaxStep ch moves g v b).2.2 := by
  intro moves
  induction moves with
  | nil => intro g v b; exact le_refl v
  | cons col rest ih =>
    intro g v b
    simp only [npMaxStep]
    exact le_trans (by rw [if_lt_eq_max]; exact le_max_left _ _) (ih _ _ _)

theorem npMinStep_value_ge (ch : Game → Game × Option Nat × Score) :
    ∀ (moves : List Nat) (g : Game) (v : Score) (b : Nat),
    (npMinStep ch moves g v b).2.2 ≤ v := by
  intro moves
  induction moves with
  | nil => intro g v b; exact le_refl v
  | cons col rest ih =>
    intro g v b
    simp only [npMinStep]
    exact le_trans (ih _ _ _) (by rw [if_lt_eq_min]; exact min_le_left _ _)

theorem leafScore_btw (g : Game) :
    ⊥ < leafScore g ∧ leafScore g < (⊤ : Score) := by
  unfold leafScore
  split_ifs <;> exact ⟨bot_lt_sc _, sc_lt_top _⟩

theorem maxStep_btw (ch : Score → Game → Game × Option Nat × Score) (b0 : Score)
    (hch : ∀ x g', ⊥ < (ch x g').2.2 ∧ (ch x g').2.2 < ⊤) :
    ∀ (moves : List Nat) (g : Game) (al v : Score) (bp : Nat),
    ((⊥ < v ∧ v < ⊤) ∨ (v = ⊥ ∧ moves ≠ [])) →
    ⊥ < (maxStep ch b0 moves g al v bp).2.2 ∧ (maxStep ch b0 moves g al v bp).2.2 < ⊤ := by
  intro moves
  induction moves with
  | nil =>
    intro g al v bp h
    rcases h with h | ⟨_, hne⟩
    · exact h
    · exact absurd rfl hne
  | cons col rest ih =>
    intro g al v bp h
    obtain ⟨hs1, hs2⟩ :=
      hch al (setCell g ((get_next_open_row g col).getD (g.rows - 1)) col 2)
    have hv' : ⊥ < max v (ch al (setCell g ((get_next_open_row g col).getD (g.rows - 1)) col 2)).2.2 ∧
        max v (ch al (setCell g ((get_next_open_row g col).getD (g.rows - 1)) col 2)).2.2 < ⊤ := by
      rcases h with ⟨hv1, hv2⟩ | ⟨rfl, -⟩
      · exact ⟨lt_of_lt_of_le hv1 (le_max_left _ _), max_lt hv2 hs2⟩
      · rw [max_eq_right bot_le]
        exact ⟨hs1, hs2⟩
    simp only [maxStep, if_lt_eq_max]
    split <;>
      first
        | exact hv'
        | exact ih _ _ _ _ (Or.inl hv')

theorem minStep_btw (ch : Score → Game → Game × Option Nat × Score) (a0 : Score)
    (hch : ∀ x g', ⊥ < (ch x g').2.2 ∧ (ch x g').2.2 < ⊤) :
    ∀ (moves : List Nat) (g : Game) (be v : Score) (bp : Nat),
    ((⊥ < v ∧ v < ⊤) ∨ (v = ⊤ ∧ moves ≠ [])) →
    ⊥ < (minStep ch a0 moves g be v bp).2.2 ∧ (minStep ch a0 moves g be v bp).2.2 < ⊤ := by
  intro moves
  induction moves with
  | nil =>
    intro g be v bp h
    rcases h with h | ⟨_, hne⟩
    · exact h
    · exact absurd rfl hne
  | cons col rest ih =>
    intro g be v bp h
    obtain ⟨hs1, hs2⟩ :=
      hch be (setCell g ((get_next_open_row g col).getD (g.rows - 1)) col 1)
    have hv' : ⊥ < min v (ch be (setCell g ((get_next_open_row g col).getD (g.rows - 1)) col 1)).2.2 ∧
        min v (ch be (setCell g ((get_next_open_row g col).getD (g.rows - 1)) col 1)).2.2 < ⊤ := by
      rcases h with ⟨hv1, hv2⟩ | ⟨rfl, -⟩
      · exact ⟨lt_min hv1 hs1, lt_of_le_of_lt (min_le_left _ _) hv2⟩
      · rw [min_eq_right le_top]
        exact ⟨hs1, hs2⟩
    simp only [minStep, if_lt_eq_min]
    split <;>
      first
        | exact hv'
        | exact ih _ _ _ _ (Or.inl hv')

/-- Minimax scores are always finite: strictly between the two
sentinels. -/
theorem minimax_btw :
    ∀ (depth : Nat) (alpha beta : Score) (m : Bool) (g : Game),
    ⊥ < (minimax depth alpha beta m g).2.2 ∧ (minimax depth alpha beta m g).2.2 < ⊤ := by
  intro depth
  induction depth with
  | zero => intro alpha beta m g; exact leafScore_btw g
  | succ d ih =>
    intro alpha beta m g
    simp only [minimax]
    split
    case isTrue => exact leafScore_btw g
    case isFalse hterm =>
      have hterm' : isTerminal g = false := by
        simp only [Bool.not_eq_true] at hterm
        exact hterm
      have hfull : is_board_full g = false := by
        simp only [isTerminal, Bool.or_eq_false_iff] at hterm'
        exact hterm'.2
      have hne : get_valid_moves g ≠ [] := valid_moves_ne_nil g hfull
      split
      · exact maxStep_btw _ beta (fun x g' => ih x beta false g') _ g alpha ⊥ _
          (Or.inr ⟨rfl, hne⟩)
      · exact minStep_btw _ alpha (fun x g' => ih alpha x true g') _ g beta ⊤ _
          (Or.inr ⟨rfl, hne⟩)

theorem max_max_assoc {α : Type} [LinearOrder α] (x y z : α) :
    max (max x y) (max y z) = max x (max y z) := by
  rw [max_assoc x y (max y z), ← max_assoc y y z, max_self]

theorem min_min_assoc {α : Type} [LinearOrder α] (x y z : α) :
    min (min x y) (min y z) = min x (min y z) := by
  rw [min_assoc x y (min y z), ← min_assoc y y z, min_self]

/-- Fail-soft correctness of the pruned maximizing loop: if each child
search is fail-soft correct in its window, so is the loop value
against the exhaustive loop value, for a running alpha of the shape
max alpha0 value. -/
theorem maxStep_KM (ch : Score → Game → Game × Option Nat × Score)
    (chNP : Game → Game × Option Nat × Score) (a0 b0 : Score)
    (hres : ∀ x g', (ch x g').1 = g')
    (hresNP : ∀ g', (chNP g').1 = g')
    (hKM : ∀ x g', x < b0 → KMrel x b0 ((ch x g').2.2) ((chNP g').2.2)) :
    ∀ (moves : List Nat) (g : Game) (v t : Score) (bp bn : Nat),
    max a0 v < b0 → KMrel a0 b0 v t →
    KMrel a0 b0 ((maxStep ch b0 moves g (max a0 v) v bp).2.2)
      ((npMaxStep chNP moves g t bn).2.2) := by
  intro moves
  induction moves with
  | nil => intro g v t bp bn hlt hK; exact hK
  | cons col rest ih =>
    intro g v t bp bn hlt hK
    obtain ⟨hK1, hK2, hK3⟩ := hK
    have ha0b : a0 < b0 := lt_of_le_of_lt (le_max_left a0 v) hlt
    have hvb : v < b0 := lt_of_le_of_lt (le_max_right a0 v) hlt
    obtain ⟨hc1, hc2, hc3⟩ :=
      hKM (max a0 v) (setCell g ((get_next_open_row g col).getD (g.rows - 1)) col 2) hlt
    simp only [maxStep, npMaxStep, hres, hresNP, if_lt_eq_max]
    rw [max_max_assoc]
    by_cases hbr : b0 ≤ max a0
        (max v (ch (max a0 v) (setCell g ((get_next_open_row g col).getD (g.rows - 1)) col 2)).2.2)
    · rw [if_pos hbr]
      have hbs : b0 ≤ max v (ch (max a0 v) (setCell g ((get_next_open_row g col).getD (g.rows - 1)) col 2)).2.2 := by
        rcases le_max_iff.mp hbr with h | h
        · exact absurd h (not_le.mpr ha0b)
        · exact h
      have hsb : b0 ≤ (ch (max a0 v) (setCell g ((get_next_open_row g col).getD (g.rows - 1)) col 2)).2.2 := by
        rcases le_max_iff.mp hbs with h | h
        · exact absurd h (not_le.mpr hvb)
        · exact h
      have hPs : max v (ch (max a0 v) (setCell g ((get_next_open_row g col).getD (g.rows - 1)) col 2)).2.2
          = (ch (max a0 v) (setCell g ((get_next_open_row g col).getD (g.rows - 1)) col 2)).2.2 :=
        max_eq_right (le_trans (le_of_lt hvb) hsb)
      have hstc := hc2 hsb
      refine ⟨?_, ?_, ?_⟩
      · intro hPa
        rw [hPs] at hPa
        exact absurd (le_trans hsb hPa) (not_le.mpr ha0b)
      · intro _
        rw [hPs]
        exact le_trans hstc (le_trans (le_max_right _ _) (npMaxStep_value_le chNP rest _ _ _))
      · intro _ hPb
        exact absurd hbs (not_le.mpr hPb)
    · rw [if_neg hbr]
      have hlt' : max a0
          (max v (ch (max a0 v) (setCell g ((get_next_open_row g col).getD (g.rows - 1)) col 2)).2.2) < b0 :=
        not_le.mp hbr
      have hK' : KMrel a0 b0
          (max v (ch (max a0 v) (setCell g ((get_next_open_row g col).getD (g.rows - 1)) col 2)).2.2)
          (max t (chNP (setCell g ((get_next_open_row g col).getD (g.rows - 1)) col 2)).2.2) := by
        refine ⟨?_, ?_, ?_⟩
        · intro hPa
          have hva : v ≤ a0 := le_trans (le_max_left _ _) hPa
          have hsa : (ch (max a0 v) (setCell g ((get_next_open_row g col).getD (g.rows - 1)) col 2)).2.2 ≤ a0 :=
            le_trans (le_max_right _ _) hPa
          have htv := hK1 hva
          have htcs := hc1 (le_trans hsa (le_max_left a0 v))
          exact max_le (le_trans htv (le_max_left _ _)) (le_trans htcs (le_max_right _ _))
        · intro hPb
          exact absurd (le_trans hPb (le_max_right a0 _)) (not_le.mpr hlt')
        · intro hPa hPb
          rcases le_or_lt (ch (max a0 v) (setCell g ((get_next_open_row g col).getD (g.rows - 1)) col 2)).2.2 v with hsv | hvs
          · rw [max_eq_left hsv] at hPa hPb ⊢
            have hvt := hK3 hPa hPb
            have htcs := hc1 (le_trans hsv (le_max_right a0 v))
            have htct : (chNP (setCell g ((get_next_open_row g col).getD (g.rows - 1)) col 2)).2.2 ≤ t :=
              le_trans htcs (le_trans hsv (le_of_eq hvt))
            rw [max_eq_left htct]
            exact hvt
          · rw [max_eq_right (le_of_lt hvs)] at hPa hPb ⊢
            have hms : max a0 v < (ch (max a0 v) (setCell g ((get_next_open_row g col).getD (g.rows - 1)) col 2)).2.2 :=
              max_lt hPa hvs
            have hstc := hc3 hms hPb
            have hts : t ≤ (ch (max a0 v) (setCell g ((get_next_open_row g col).getD (g.rows - 1)) col 2)).2.2 := by
              rcases le_or_lt v a0 with hva | hav
              · exact le_trans (hK1 hva) (le_of_lt hvs)
              · rw [← hK3 hav (lt_trans hvs hPb)]
                exact le_of_lt hvs
            rw [max_eq_right (le_trans hts (le_of_eq hstc))]
            exact hstc
      exact ih _ _ _ _ _ hlt' hK'

/-- Fail-soft correctness of the pruned minimizing loop, for a running
beta of the shape min beta0 value. -/
theorem minStep_KM (ch : Score → Game → Game × Option Nat × Score)
    (chNP : Game → Game × Option Nat × Score) (a0 b0 : Score)
    (hres : ∀ y g', (ch y g').1 = g')
    (hresNP : ∀ g', (chNP g').1 = g')
    (hKM : ∀ y g', a0 < y → KMrel a0 y ((ch y g').2.2) ((chNP g').2.2)) :
    ∀ (moves : List Nat) (g : Game) (v t : Score) (bp bn : Nat),
    a0 < min b0 v → KMrel a0 b0 v t →
    KMrel a0 b0 ((minStep ch a0 moves g (min b0 v) v bp).2.2)
      ((npMinStep chNP moves g t bn).2.2) := by
  intro moves
  induction moves with
  | nil => intro g v t bp bn hlt hK; exact hK
  | cons col rest ih =>
    intro g v t bp bn hlt hK
    obtain ⟨hK1, hK2, hK3⟩ := hK
    have ha0b : a0 < b0 := lt_of_lt_of_le hlt (min_le_left b0 v)
    have hav : a0 < v := lt_of_lt_of_le hlt (min_le_right b0 v)
    obtain ⟨hc1, hc2, hc3⟩ :=
      hKM (min b0 v) (setCell g ((get_next_open_row g col).getD (g.rows - 1)) col 1) hlt
    simp only [minStep, npMinStep, hres, hresNP, if_lt_eq_min]
    rw [min_min_assoc]
    by_cases hbr : min b0
        (min v (ch (min b0 v) (setCell g ((get_next_open_row g col).getD (g.rows - 1)) col 1)).2.2) ≤ a0
    · rw [if_pos hbr]
      have hPs_le : min v (ch (min b0 v) (setCell g ((get_next_open_row g col).getD (g.rows - 1)) col 1)).2.2 ≤ a0 := by
        rcases min_le_iff.mp hbr with h | h
        · exact absurd h (not_le.mpr ha0b)
        · exact h
      have hsa : (ch (min b0 v) (setCell g ((get_next_open_row g col).getD (g.rows - 1)) col 1)).2.2 ≤ a0 := by
        rcases min_le_iff.mp hPs_le with h | h
        · exact absurd h (not_le.mpr hav)
        · exact h
      have hPs : min v (ch (min b0 v) (setCell g ((get_next_open_row g col).getD (g.rows - 1)) col 1)).2.2
          = (ch (min b0 v) (setCell g ((get_next_open_row g col).getD (g.rows - 1)) col 1)).2.2 :=
        min_eq_right (le_trans hsa (le_of_lt hav))
      have htcs := hc1 hsa
      refine ⟨?_, ?_, ?_⟩
      · intro _
        rw [hPs]
        exact le_trans (npMinStep_value_ge chNP rest _ _ _) (le_trans (min_le_right _ _) htcs)
      · intro hPb
        rw [hPs] at hPb
        exact absurd (le_trans hPb hsa) (not_le.mpr ha0b)
      · intro hPa _
        exact absurd hPs_le (not_le.mpr hPa)
    · rw [if_neg hbr]
      have hlt' : a0 < min b0
          (min v (ch (min b0 v) (setCell g ((get_next_open_row g col).getD (g.rows - 1)) col 1)).2.2) :=
        not_le.mp hbr
      have hK' : KMrel a0 b0
          (min v (ch (min b0 v) (setCell g ((get_next_open_row g col).getD (g.rows - 1)) col 1)).2.2)
          (min t (chNP (setCell g ((get_next_open_row g col).getD (g.rows - 1)) col 1)).2.2) := by
        refine ⟨?_, ?_, ?_⟩
        · intro hPa
          exact absurd (lt_of_lt_of_le hlt' (min_le_right b0 _)) (not_lt.mpr hPa)
        · intro hPb
          have hbv : b0 ≤ v := le_trans hPb (min_le_left _ _)
          have hbs : b0 ≤ (ch (min b0 v) (setCell g ((get_next_open_row g col).getD (g.rows - 1)) col 1)).2.2 :=
            le_trans hPb (min_le_right _ _)
          have hvt := hK2 hbv
          have hstc := hc2 (le_trans (min_le_left b0 v) hbs)
          exact le_min (le_trans (min_le_left _ _) hvt) (le_trans (min_le_right _ _) hstc)
        · intro hPa hPb
          rcases le_or_lt v (ch (min b0 v) (setCell g ((get_next_open_row g col).getD (g.rows - 1)) col 1)).2.2 with hvs | hsv
          · rw [min_eq_left hvs] at hPa hPb ⊢
            have hvt := hK3 hPa hPb
            have hstc := hc2 (le_trans (min_le_right b0 v) hvs)
            have httc : t ≤ (chNP (setCell g ((get_next_open_row g col).getD (g.rows - 1)) col 1)).2.2 :=
              le_trans (le_of_eq hvt.symm) (le_trans hvs hstc)
            rw [min_eq_left httc]
            exact hvt
          · rw [min_eq_right (le_of_lt hsv)] at hPa hPb ⊢
            have hms : (ch (min b0 v) (setCell g ((get_next_open_row g col).getD (g.rows - 1)) col 1)).2.2 < min b0 v :=
              lt_min hPb hsv
            have hstc := hc3 hPa hms
            have hst : (ch (min b0 v) (setCell g ((get_next_open_row g col).getD (g.rows - 1)) col 1)).2.2 ≤ t := by
              rcases le_or_lt b0 v with hbv | hvb
              · exact le_trans (le_of_lt hsv) (hK2 hbv)
              · rw [← hK3 (lt_trans hPa hsv) hvb]
                exact le_of_lt hsv
            rw [min_eq_right (le_trans (le_of_eq hstc.symm) hst)]
            exact hstc
      exact ih _ _ _ _ _ hlt' hK'

/-- Fail-soft correctness of minimax against exhaustive minimax, at
every window and every node. -/
theorem minimax_KM :
    ∀ (depth : Nat) (g : Game) (m : Bool) (a b : Score), a < b →
    KMrel a b ((minimax depth a b m g).2.2) ((minimaxNP depth m g).2.2) := by
  intro depth
  induction depth with
  | zero => intro g m a b _; exact KMrel_of_eq a b _ _ rfl
  | succ d ih =>
    intro g m a b hab
    simp only [minimax, minimaxNP]
    split
    · exact KMrel_of_eq a b _ _ rfl
    · split
      · have h := maxStep_KM (fun x g' => minimax d x b false g')
          (fun g' => minimaxNP d false g') a b
          (fun x g' => minimax_fst d x b false g')
          (fun g' => minimaxNP_fst d false g')
          (fun x g' hx => ih g' false x b hx)
          (get_valid_moves g) g ⊥ ⊥
          ((get_valid_moves g).headD 0) ((get_valid_moves g).headD 0)
          (by rw [max_eq_left bot_le]; exact hab)
          ⟨fun _ => le_refl _, fun _ => le_refl _, fun ha _ => absurd ha not_lt_bot⟩
        rw [max_eq_left bot_le] at h
        exact h
      · have h := minStep_KM (fun y g' => minimax d a y true g')
          (fun g' => minimaxNP d true g') a b
          (fun y g' => minimax_fst d a y true g')
          (fun g' => minimaxNP_fst d true g')
          (fun y g' hy => ih g' true a y hy)
          (get_valid_moves g) g ⊤ ⊤
          ((get_valid_moves g).headD 0) ((get_valid_moves g).headD 0)
          (by rw [min_eq_left le_top]; exact hab)
          ⟨fun _ => le_refl _, fun _ => le_refl _, fun _ hb => absurd hb not_top_lt⟩
        rw [min_eq_left le_top] at h
        exact h

/-- C2: for every board state, depth and side to move, minimax called
with the full window (alpha the bottom sentinel, beta the top
sentinel) returns the same top-level score as the same recursion with
the alpha-beta pruning break removed (exhaustive minimax at the same
depth). -/
theorem claim2_pruning_sound (depth : Nat) (maximizing : Bool) (g : Game) :
    (minimax depth ⊥ ⊤ maximizing g).2.2 = (minimaxNP depth maximizing g).2.2 := by
  obtain ⟨h1, h2⟩ := minimax_btw depth ⊥ ⊤ maximizing g
  exact (minimax_KM depth g maximizing ⊥ ⊤ bot_lt_top).2.2 h1 h2
